import Mathlib

/-!
Shallow embedding of the auction_market repository.

Python `float` values are modelled as rationals (`ℚ`): the claims under
study concern selection, comparison and the exact arithmetic expressions
of the source, none of which depend on rounding.  Python `dict[str, float]`
is modelled as an insertion-ordered association list `List (String × ℚ)`;
a real dict additionally has no duplicate keys, which appears as a
`Nodup` hypothesis where a proof needs it.
-/

namespace AuctionMarket

/-- The comparison used by `sorted(bids.items(), key=lambda x: x[1], reverse=True)`
in `core/game_logic.py`: descending by bid value. -/
def bidGe (a b : String × ℚ) : Prop := b.2 ≤ a.2

instance : DecidableRel bidGe := fun a b => inferInstanceAs (Decidable (b.2 ≤ a.2))

instance : IsTotal (String × ℚ) bidGe := ⟨fun a b => le_total b.2 a.2⟩

instance : IsTrans (String × ℚ) bidGe := ⟨fun _ _ _ h1 h2 => le_trans h2 h1⟩

/-- `core/game_logic.py`, `run_second_price_auction`.  Python's `sorted` is a
stable sort; a stable sort with respect to a total preorder is unique, so it
is modelled by Mathlib's stable `List.insertionSort` with the descending
comparison `bidGe`. -/
def run_second_price_auction (bids : List (String × ℚ)) : Option String × ℚ :=
  if bids = [] then (none, 0)
  else
    match List.insertionSort bidGe bids with
    | [] => (none, 0)
    | (winner_id, _highest_bid) :: rest =>
      match rest with
      | [] => (some winner_id, 0)
      | (_, second_price) :: _ => (some winner_id, second_price)

/-- `core/models.py`, `AuctionOutcome` (pydantic model). -/
structure AuctionOutcome where
  auction_id : String
  round_index : Int
  winner_id : Option String
  clearing_price : ℚ
  revenue : ℚ
  bids : List (String × ℚ)
  values : List (String × ℚ)
  payoffs : List (String × ℚ)
deriving Repr, DecidableEq

/-- `tools/payoff_calculator.py`, `compute_payoffs`.  The `for bidder_id, v in
values.items()` loop building `payoffs` becomes a map over the `values`
association list; the Python comparison `bidder_id == winner_id` compares a
string with an `Optional[str]`. -/
def compute_payoffs (bids values : List (String × ℚ))
    (auction_id : String) (round_index : Int) : AuctionOutcome :=
  let wp := run_second_price_auction bids
  let winner_id := wp.1
  let clearing_price := wp.2
  let payoffs := values.map fun bv =>
    (bv.1, if some bv.1 = winner_id then bv.2 - clearing_price else 0)
  ⟨auction_id, round_index, winner_id, clearing_price, clearing_price,
    bids, values, payoffs⟩

/-- Python dict lookup `d[k]` on an association list (first matching key). -/
def dictGet (d : List (String × ℚ)) (k : String) : Option ℚ :=
  match d with
  | [] => none
  | p :: rest => if p.1 = k then some p.2 else dictGet rest k

/-- The first entry of the list attaining the maximal value: this is the
entry that a stable descending sort places first. -/
def firstMax : List (String × ℚ) → Option (String × ℚ)
  | [] => none
  | p :: l =>
    match firstMax l with
    | none => some p
    | some q => if q.2 ≤ p.2 then some p else some q

/-- Model of Python's `random.Random`: a pseudo-random generator whose
stream is a deterministic function of its seed.  CPython uses a Mersenne
Twister; the claims under study depend only on the stream being a fixed
deterministic function of the seed, so the twister update is modelled by a
64-bit linear congruential step.  `random()` yields a rational in `[0, 1)`. -/
structure PyRandom where
  state : Nat
deriving Repr, DecidableEq

/-- `random.Random(seed)`. -/
def PyRandom.seeded (seed : Nat) : PyRandom :=
  ⟨(6364136223846793005 * seed + 1442695040888963407) % 2 ^ 64⟩

/-- `rng.random()`: a draw in `[0, 1)` together with the advanced generator. -/
def PyRandom.random (r : PyRandom) : ℚ × PyRandom :=
  let s : Nat := (6364136223846793005 * r.state + 1442695040888963407) % 2 ^ 64
  ((s : ℚ) / 2 ^ 64, ⟨s⟩)

/-- `tools/best_response.py`: `NUM_OPPONENTS = 2`. -/
def NUM_OPPONENTS : Nat := 2

/-- `tools/best_response.py`: `SAMPLES_PER_BID = 500`. -/
def SAMPLES_PER_BID : Nat := 500

/-- One Monte Carlo sample of `approximate_best_response` for candidate bid
`b`: starting from `values = {"me": private_value}` and `bids = {"me": b}`,
each of the `NUM_OPPONENTS` truthful opponents appends its drawn value to
both dicts, the payoff calculator runs (with its default `auction_id` and
`round_index`), and the subject's payoff is read off.  The lookup
`outcome.payoffs["me"]` always succeeds because `"me"` is a key of `values`,
so the `getD 0` default is never exercised. -/
def sampleOnce (private_value b : ℚ) (rng : PyRandom) : ℚ × PyRandom :=
  let player_id := "me"
  let st := (List.range NUM_OPPONENTS).foldl
    (fun (acc : (List (String × ℚ) × List (String × ℚ)) × PyRandom) j =>
      let (opp_value, rng2) := acc.2.random
      let opp_id := "opp_" ++ toString j
      ((acc.1.1 ++ [(opp_id, opp_value)], acc.1.2 ++ [(opp_id, opp_value)]), rng2))
    (([(player_id, private_value)], [(player_id, b)]), rng)
  let outcome := compute_payoffs st.1.2 st.1.1 "simulated_auction" 0
  ((dictGet outcome.payoffs player_id).getD 0, st.2)

/-- The inner loop of `approximate_best_response`: total utility of bid `b`
over `SAMPLES_PER_BID` samples, divided by `SAMPLES_PER_BID`. -/
def avgUtility (private_value b : ℚ) (rng : PyRandom) : ℚ × PyRandom :=
  let t := (List.range SAMPLES_PER_BID).foldl
    (fun (acc : ℚ × PyRandom) _ =>
      let (u, rng2) := sampleOnce private_value b acc.2
      (acc.1 + u, rng2))
    (0, rng)
  (t.1 / (SAMPLES_PER_BID : ℚ), t.2)

/-- `grid = [i / (num_grid_points - 1) for i in range(num_grid_points)]`. -/
def brGrid (num_grid_points : Nat) : List ℚ :=
  (List.range num_grid_points).map
    (fun i : Nat => (i : ℚ) / ((num_grid_points : ℚ) - 1))

/-- The strict comparison `avg_utility > best_utility`, where `best_utility`
starts as `float("-inf")` (modelled by `none`). -/
def gtBest (avg : ℚ) : Option ℚ → Bool
  | none => true
  | some u => decide (u < avg)

/-- The grid scan of `approximate_best_response`: for each candidate bid the
average utility is computed (advancing the generator), and the running best
`(best_bid, best_utility)` is replaced exactly when the strict `>` holds. -/
def brLoop (private_value : ℚ) :
    List ℚ → ℚ × Option ℚ → PyRandom → ℚ × Option ℚ
  | [], acc, _ => acc
  | b :: grid, acc, rng =>
    let p := avgUtility private_value b rng
    if gtBest p.1 acc.2 then brLoop private_value grid (b, some p.1) p.2
    else brLoop private_value grid acc p.2

/-- `tools/best_response.py`, `approximate_best_response`.  The `.error`
value models the `ValueError` raised when `num_grid_points < 2`; on the
other path the generator is freshly seeded with `0`, the grid is scanned
with `best_bid = 0.0` and `best_utility = -inf` as initial bests, and the
final pair is returned.  (The grid is non-empty and its first iteration
always replaces `-inf`, so `getD 0` is never exercised.) -/
def approximate_best_response (private_value : ℚ) (num_grid_points : Nat) :
    Except String (ℚ × ℚ) :=
  if num_grid_points < 2 then .error "num_grid_points must be at least 2"
  else
    let rng := PyRandom.seeded 0
    let grid := brGrid num_grid_points
    let best := brLoop private_value grid (0, none) rng
    .ok (best.1, best.2.getD 0)

/-- The estimator run against an ambient process-wide generator `g` (the
state that Python's global `random` module carries between calls): the
source constructs a fresh local `random.Random(0)` at the start of each
call and never reads or advances the ambient generator, which is therefore
returned unchanged. -/
def approximate_best_response_in_env (g : PyRandom) (private_value : ℚ)
    (num_grid_points : Nat) : Except String (ℚ × ℚ) × PyRandom :=
  (approximate_best_response private_value num_grid_points, g)

/-- The successive average utilities computed along the grid scan,
threading the generator from one candidate bid to the next. -/
def avgList (private_value : ℚ) (rng : PyRandom) : List ℚ → List ℚ
  | [] => []
  | b :: grid =>
    let p := avgUtility private_value b rng
    p.1 :: avgList private_value p.2 grid

/-- The pure selection performed by `brLoop`, on precomputed
(candidate bid, average utility) pairs. -/
def selectBest (acc : ℚ × Option ℚ) : List (ℚ × ℚ) → ℚ × Option ℚ
  | [] => acc
  | p :: rest =>
    if gtBest p.2 acc.2 then selectBest (p.1, some p.2) rest
    else selectBest acc rest

/-- One entry of the `rounds` list built by `AuctioneerAgent.build_history`. -/
structure RoundHistory where
  round_index : Int
  bids : List (String × ℚ)
  secret_values : List (String × ℚ)
  winner_id : Option String
deriving Repr, DecidableEq

/-- The structured history dict returned by `build_history`
(`summary_stats` carries only `num_rounds`). -/
structure HistoryDict where
  rounds : List RoundHistory
  num_rounds : Nat
deriving Repr, DecidableEq

/-- The `history: Optional[dict]` argument of
`HeuristicBidderAgent.adjust_shading_from_history`, distinguishing the
cases tested by
`if not history or "rounds" not in history or len(history["rounds"]) == 0`:
a missing/falsy history, a dict without the `"rounds"` key, or a dict with
a `rounds` list. -/
inductive HistoryArg where
  | noHistory : HistoryArg
  | missingRounds : HistoryArg
  | withRounds : List RoundHistory → HistoryArg
deriving Repr, DecidableEq

/-- `agents/heuristic_bidder_agent.py`, `adjust_shading_from_history`.
The LLM call plus `float(new_shade_text.strip())` parse is modelled by
`llm : Option ℚ`: `none` when `call_llm` raises or its output does not
parse as a float (the `except Exception` branch returns the unchanged
factor), `some x` when it parses to `x`, which is then clamped by
`min(max(new_shade, 0.7), 0.95)`. -/
def adjust_shading_from_history (shading_factor : ℚ) (history : HistoryArg)
    (llm : Option ℚ) : ℚ :=
  match history with
  | .noHistory => shading_factor
  | .missingRounds => shading_factor
  | .withRounds rounds =>
    if rounds.length = 0 then shading_factor
    else
      match llm with
      | none => shading_factor
      | some new_shade => min (max new_shade 0.7) 0.95

/-- `HeuristicBidderAgent.get_bid` begins with
`self.shading_factor = self.adjust_shading_from_history(request.history)`;
a run of rounds therefore folds the adjustment over the successive
(history, LLM outcome) inputs. -/
def shadingAfter (shading_factor : ℚ) (steps : List (HistoryArg × Option ℚ)) : ℚ :=
  steps.foldl (fun s step => adjust_shading_from_history s step.1 step.2) shading_factor

/-- `core/models.py`, `AuctionConfig`. -/
structure AuctionConfig where
  num_bidders : Int
  min_value : ℚ
  max_value : ℚ
  reserve_price : ℚ
  mechanism : String
  value_distribution : String
  random_seed : Option Int
deriving Repr, DecidableEq

/-- `core/models.py`, `BidRequest`, as constructed by
`AuctioneerAgent.run_round` (which passes a `history` snapshot). -/
structure BidRequest where
  auction_id : String
  round_index : Int
  auction_config : AuctionConfig
  bidder_id : String
  private_value : ℚ
  history : HistoryDict
deriving Repr, DecidableEq

/-- One record of `AuctioneerAgent.bid_history` (`winner_id` is absent until
backfilled after resolution; `none` models both absent and null). -/
structure BidRecord where
  round : Int
  agent_id : String
  agent_type : String
  bid : ℚ
  secret_value : ℚ
  winner_id : Option String
deriving Repr, DecidableEq

/-- `sorted({entry["round"] for entry in self.bid_history})`: the distinct
round indices in ascending order. -/
def roundsToInclude (bid_history : List BidRecord) : List Int :=
  List.insertionSort (fun a b : Int => a ≤ b) (bid_history.map BidRecord.round).dedup

/-- The round entry `build_history` assembles for a round index `r`. -/
def buildRoundEntry (bid_history : List BidRecord) (r : Int) : RoundHistory :=
  let round_entries := bid_history.filter (fun e => e.round == r)
  ⟨r, round_entries.map (fun e => (e.agent_id, e.bid)),
    round_entries.map (fun e => (e.agent_id, e.secret_value)),
    round_entries.head?.bind BidRecord.winner_id⟩

/-- `AuctioneerAgent.build_history`: rounds equal to `exclude_round` are
skipped by the `continue`. -/
def build_history (bid_history : List BidRecord) (exclude_round : Option Int) :
    HistoryDict :=
  let keep := (roundsToInclude bid_history).filter (fun r =>
    match exclude_round with
    | some er => !(r == er)
    | none => true)
  let rounds_history := keep.map (buildRoundEntry bid_history)
  ⟨rounds_history, rounds_history.length⟩

/-- The REQUEST_BIDS phase of `AuctioneerAgent.run_round`: for each bidder
in turn a `BidRequest` is built carrying
`build_history(exclude_round=current_round)` over the auctioneer's current
`bid_history`, the bidder's bid is obtained, and the bidder's record for
the current round is appended to `bid_history` before the next bidder is
queried.  `getBid` abstracts the bidder agents (`bidder.get_bid`),
`agentType` the `"Heuristic"`/`"Strategic"` classification, and the values
paired with the bidder ids are the sampled `sample_value_uniform_0_1()`
draws. -/
def request_bids (cfg : AuctionConfig) (auction_id : String)
    (current_round : Int) (getBid : BidRequest → ℚ)
    (agentType : String → String) :
    List (String × ℚ) → List BidRecord → List BidRequest × List BidRecord
  | [], hist => ([], hist)
  | (bidder_id, v) :: bidders, hist =>
    let req : BidRequest :=
      ⟨auction_id, current_round, cfg, bidder_id, v,
        build_history hist (some current_round)⟩
    let bid := getBid req
    let record : BidRecord :=
      ⟨current_round, bidder_id, agentType bidder_id, bid, v, none⟩
    let rest := request_bids cfg auction_id current_round getBid agentType
      bidders (hist ++ [record])
    (req :: rest.1, rest.2)

/-- `core/models.py`, `SimulationSummary` (the `revenue_series=` argument is
commented out at the `run_simulation` return, so the field stays `None`). -/
structure SimulationSummary where
  config : AuctionConfig
  num_rounds : Nat
  mean_revenue : ℚ
  mean_utility_per_bidder : List (String × ℚ)
  distribution_of_winners : List (String × ℚ)
  revenue_series : Option (List ℚ)
deriving Repr, DecidableEq

/-- `total[k] += x` on an association list; `none` models Python's
`KeyError` when `k` is absent (unreachable in `run_simulation`, whose
accumulators are initialised with every bidder id). -/
def dictAdd : List (String × ℚ) → String → ℚ → Option (List (String × ℚ))
  | [], _, _ => none
  | p :: rest, k, x =>
    if p.1 = k then some ((p.1, p.2 + x) :: rest)
    else (dictAdd rest k x).map (p :: ·)

/-- `win_counts[k] += 1`, likewise. -/
def winAdd : List (String × Nat) → String → Option (List (String × Nat))
  | [], _ => none
  | p :: rest, k =>
    if p.1 = k then some ((p.1, p.2 + 1) :: rest)
    else (winAdd rest k).map (p :: ·)

/-- One round of `tools/auction_sim.py`, `run_simulation`: sample values
(`sample` abstracts `rng.uniform(min_value, max_value)`), turn each
strategy name into a bid, run the payoff calculator, and aggregate the
round into `(total_revenue, total_utility_per_bidder, win_counts,
revenue_series)`. -/
def simRound (strategy_profiles : List (String × String))
    (sample : Nat → String → ℚ)
    (st : ℚ × List (String × ℚ) × List (String × Nat) × List ℚ)
    (round_idx : Nat) :
    Option (ℚ × List (String × ℚ) × List (String × Nat) × List ℚ) := do
  let bidder_ids := strategy_profiles.map Prod.fst
  let values := bidder_ids.map (fun b => (b, sample round_idx b))
  let bids := strategy_profiles.map (fun bs =>
    (bs.1,
      if bs.2 = "truthful" then sample round_idx bs.1
      else if bs.2 = "shaded_0.8" then 0.8 * sample round_idx bs.1
      else sample round_idx bs.1))
  let outcome := compute_payoffs bids values
    ("sim_round_" ++ toString round_idx) (round_idx : Int)
  let total_revenue := st.1 + outcome.revenue
  let revenue_series := st.2.2.2 ++ [outcome.revenue]
  let total_utility ← outcome.payoffs.foldlM
    (fun d bp => dictAdd d bp.1 bp.2) st.2.1
  let win_counts ←
    match outcome.winner_id with
    | some w => winAdd st.2.2.1 w
    | none => some st.2.2.1
  some (total_revenue, total_utility, win_counts, revenue_series)

/-- `tools/auction_sim.py`, `run_simulation`.  The leading `assert` is the
`.error` case; the per-round loop threads the aggregate state; with
`num_rounds > 0` the means divide by `num_rounds`, otherwise the zeroed
maps are returned.  Division by a bidder id's missing key cannot occur
(`getD 0` is never exercised) because the accumulators hold exactly the
bidder ids. -/
def run_simulation (cfg : AuctionConfig)
    (strategy_profiles : List (String × String)) (num_rounds : Nat)
    (sample : Nat → String → ℚ) : Except String SimulationSummary :=
  let bidder_ids := strategy_profiles.map Prod.fst
  if cfg.num_bidders ≠ (bidder_ids.length : Int) then
    .error "auction_config.num_bidders must match number of strategy_profiles"
  else
    let init : ℚ × List (String × ℚ) × List (String × Nat) × List ℚ :=
      (0, bidder_ids.map (fun b => (b, 0)), bidder_ids.map (fun b => (b, 0)), [])
    match (List.range num_rounds).foldlM (simRound strategy_profiles sample) init with
    | none => .error "KeyError"
    | some st =>
      if 0 < num_rounds then
        .ok ⟨cfg, num_rounds, st.1 / (num_rounds : ℚ),
          bidder_ids.map (fun b => (b, (dictGet st.2.1 b).getD 0 / (num_rounds : ℚ))),
          bidder_ids.map (fun b =>
            (b, (((st.2.2.1.lookup b).getD 0 : ℚ)) / (num_rounds : ℚ))),
          none⟩
      else
        .ok ⟨cfg, num_rounds, 0,
          bidder_ids.map (fun b => (b, 0)),
          bidder_ids.map (fun b => (b, 0)),
          none⟩

theorem firstMax_eq_none_iff (l : List (String × ℚ)) : firstMax l = none ↔ l = [] := by
  cases l with
  | nil => simp [firstMax]
  | cons p l =>
    simp only [firstMax]
    cases hl : firstMax l with
    | none => simp
    | some q =>
      by_cases hle : q.2 ≤ p.2 <;> simp [hle]

theorem firstMax_mem {l : List (String × ℚ)} {q : String × ℚ}
    (h : firstMax l = some q) : q ∈ l := by
  induction l generalizing q with
  | nil => simp [firstMax] at h
  | cons p l ih =>
    cases hl : firstMax l with
    | none =>
      simp only [firstMax, hl] at h
      simp at h
      simp [h]
    | some q' =>
      simp only [firstMax, hl] at h
      by_cases hle : q'.2 ≤ p.2
      · rw [if_pos hle] at h
        simp at h
        simp [h]
      · rw [if_neg hle] at h
        simp at h
        subst h
        exact List.mem_cons_of_mem _ (ih hl)

theorem firstMax_le {l : List (String × ℚ)} {q : String × ℚ}
    (h : firstMax l = some q) : ∀ p ∈ l, p.2 ≤ q.2 := by
  induction l generalizing q with
  | nil => simp [firstMax] at h
  | cons p l ih =>
    intro x hx
    cases hl : firstMax l with
    | none =>
      have hnil : l = [] := (firstMax_eq_none_iff l).1 hl
      subst hnil
      simp only [firstMax, hl] at h
      simp at h
      subst h
      simp at hx
      subst hx
      exact le_refl _
    | some q' =>
      simp only [firstMax, hl] at h
      by_cases hle : q'.2 ≤ p.2
      · rw [if_pos hle] at h
        simp at h
        subst h
        rcases List.mem_cons.1 hx with rfl | hx'
        · exact le_refl _
        · exact le_trans (ih hl x hx') hle
      · rw [if_neg hle] at h
        simp at h
        subst h
        rcases List.mem_cons.1 hx with rfl | hx'
        · exact le_of_lt (lt_of_not_le hle)
        · exact ih hl x hx'

/-- Everything strictly before the entry chosen by `firstMax` has a strictly
smaller value: `firstMax` is the first-encountered maximum. -/
theorem firstMax_first {l : List (String × ℚ)} {q : String × ℚ}
    (h : firstMax l = some q) :
    ∃ l₁ l₂, l = l₁ ++ q :: l₂ ∧ ∀ p ∈ l₁, p.2 < q.2 := by
  induction l generalizing q with
  | nil => simp [firstMax] at h
  | cons p l ih =>
    cases hl : firstMax l with
    | none =>
      have hnil : l = [] := (firstMax_eq_none_iff l).1 hl
      subst hnil
      simp only [firstMax, hl] at h
      simp at h
      subst h
      exact ⟨[], [], rfl, by simp⟩
    | some q' =>
      simp only [firstMax, hl] at h
      by_cases hle : q'.2 ≤ p.2
      · rw [if_pos hle] at h
        simp at h
        subst h
        exact ⟨[], l, rfl, by simp⟩
      · rw [if_neg hle] at h
        simp at h
        subst h
        obtain ⟨l₁, l₂, heq, hlt⟩ := ih hl
        refine ⟨p :: l₁, l₂, by simp [heq], ?_⟩
        intro x hx
        rcases List.mem_cons.1 hx with rfl | hx'
        · exact lt_of_not_le hle
        · exact hlt x hx'

/-- The head of the stable descending sort is the first-encountered maximum
of the input list. -/
theorem head?_insertionSort (l : List (String × ℚ)) :
    (List.insertionSort bidGe l).head? = firstMax l := by
  induction l with
  | nil => rfl
  | cons p l ih =>
    simp only [List.insertionSort]
    cases hs : List.insertionSort bidGe l with
    | nil =>
      have : l = [] := by
        have := List.length_insertionSort bidGe l
        rw [hs] at this
        exact List.eq_nil_of_length_eq_zero this.symm
      subst this
      simp [firstMax, List.orderedInsert]
    | cons q t =>
      rw [hs] at ih
      simp only [List.head?] at ih
      simp only [firstMax]
      rw [← ih]
      simp only [List.orderedInsert]
      by_cases hle : bidGe p q
      · rw [if_pos hle]
        have : q.2 ≤ p.2 := hle
        simp [this]
      · rw [if_neg hle]
        have : ¬ q.2 ≤ p.2 := hle
        simp [this]

/-- The sorted (descending) list produced inside `run_second_price_auction`. -/
theorem sorted_bids_sorted (l : List (String × ℚ)) :
    List.Sorted bidGe (List.insertionSort bidGe l) :=
  List.sorted_insertionSort bidGe l

theorem run_second_price_empty : run_second_price_auction [] = (none, 0) := rfl

/-- Shared shape lemma: on a non-empty input the sort is non-empty, the
winner is its head's key, and the head is `firstMax`. -/
theorem run_winner_eq {bids : List (String × ℚ)} (hne : bids ≠ []) :
    ∃ p rest, List.insertionSort bidGe bids = p :: rest
      ∧ firstMax bids = some p
      ∧ (run_second_price_auction bids).1 = some p.1 := by
  cases hs : List.insertionSort bidGe bids with
  | nil =>
    exfalso
    have := List.length_insertionSort bidGe bids
    rw [hs] at this
    exact hne (List.eq_nil_of_length_eq_zero this.symm)
  | cons p rest =>
    refine ⟨p, rest, rfl, ?_, ?_⟩
    · have := head?_insertionSort bids
      rw [hs] at this
      simpa using this.symm
    · unfold run_second_price_auction
      rw [if_neg hne, hs]
      cases rest with
      | nil => rfl
      | cons b t => rfl

/-- Shared lemma: with at least two entries the clearing price is the second
element of the descending sort. -/
theorem run_price_eq {bids : List (String × ℚ)} {p b : String × ℚ}
    {t : List (String × ℚ)}
    (hs : List.insertionSort bidGe bids = p :: b :: t) :
    run_second_price_auction bids = (some p.1, b.2) := by
  have hne : bids ≠ [] := by
    intro h
    subst h
    simp [List.insertionSort] at hs
  unfold run_second_price_auction
  rw [if_neg hne, hs]

/-- C1: for every non-empty bid mapping, `run_second_price_auction` returns a
winner whose bid is the maximum bid in the mapping, ties resolved by the
first-encountered (insertion-order) entry, and with at least two entries the
clearing price is exactly the second-highest bid value (the maximum after
removing one copy of the top bid). -/
theorem second_price_winner_max_and_second_price
    (bids : List (String × ℚ)) (hne : bids ≠ []) :
    ∃ w hb,
      firstMax bids = some (w, hb)
      ∧ (run_second_price_auction bids).1 = some w
      ∧ (w, hb) ∈ bids
      ∧ (∀ p ∈ bids, p.2 ≤ hb)
      ∧ (∃ l₁ l₂, bids = l₁ ++ (w, hb) :: l₂ ∧ ∀ p ∈ l₁, p.2 < hb)
      ∧ (2 ≤ bids.length →
          ((bids.map Prod.snd).erase hb).maximum
            = ((run_second_price_auction bids).2 : WithBot ℚ)) := by
  obtain ⟨p, rest, hs, hfm, hw⟩ := run_winner_eq hne
  refine ⟨p.1, p.2, by simpa using hfm, hw, firstMax_mem hfm, firstMax_le hfm,
    by simpa using firstMax_first hfm, ?_⟩
  intro h2
  have hlen : 2 ≤ (List.insertionSort bidGe bids).length := by
    rw [List.length_insertionSort]; exact h2
  cases rest with
  | nil => rw [hs] at hlen; simp at hlen
  | cons b t =>
    have hrun := run_price_eq hs
    rw [hrun]
    have hperm : List.Perm ((List.insertionSort bidGe bids).map Prod.snd)
        (bids.map Prod.snd) :=
      (List.perm_insertionSort bidGe bids).map Prod.snd
    rw [hs] at hperm
    simp only [List.map_cons] at hperm
    have hperase : List.Perm ((p.2 :: b.2 :: t.map Prod.snd).erase p.2)
        ((bids.map Prod.snd).erase p.2) := hperm.erase p.2
    rw [List.erase_cons_head] at hperase
    have hsorted := sorted_bids_sorted bids
    rw [hs] at hsorted
    have hbt : List.Sorted bidGe (b :: t) := (List.sorted_cons.1 hsorted).2
    have hrel : ∀ x ∈ t, bidGe b x := List.rel_of_sorted_cons hbt
    rw [List.maximum_eq_coe_iff]
    constructor
    · exact hperase.mem_iff.1 (by simp)
    · intro a ha
      have := hperase.mem_iff.2 ha
      rcases List.mem_cons.1 this with rfl | ha'
      · exact le_refl _
      · obtain ⟨x, hx, rfl⟩ := List.mem_map.1 ha'
        exact hrel x hx

/-- Witness for C1 at a concrete input with a tie on the top bid. -/
theorem second_price_winner_max_and_second_price_witness :
    ([(("a" : String), (2 : ℚ)), ("b", 3), ("c", 3)] ≠ [])
    ∧ (∃ w hb,
      firstMax [(("a" : String), (2 : ℚ)), ("b", 3), ("c", 3)] = some (w, hb)
      ∧ (run_second_price_auction [("a", 2), ("b", 3), ("c", 3)]).1 = some w
      ∧ (w, hb) ∈ [(("a" : String), (2 : ℚ)), ("b", 3), ("c", 3)]
      ∧ (∀ p ∈ [(("a" : String), (2 : ℚ)), ("b", 3), ("c", 3)], p.2 ≤ hb)
      ∧ (∃ l₁ l₂, [(("a" : String), (2 : ℚ)), ("b", 3), ("c", 3)]
            = l₁ ++ (w, hb) :: l₂ ∧ ∀ p ∈ l₁, p.2 < hb)
      ∧ (2 ≤ ([(("a" : String), (2 : ℚ)), ("b", 3), ("c", 3)] : List (String × ℚ)).length →
          (([(("a" : String), (2 : ℚ)), ("b", 3), ("c", 3)].map Prod.snd).erase hb).maximum
            = ((run_second_price_auction [("a", 2), ("b", 3), ("c", 3)]).2 : WithBot ℚ))) :=
  ⟨by decide, second_price_winner_max_and_second_price _ (by decide)⟩

/-- C9: the empty bid mapping yields `(none, 0.0)`, and a single-bidder
mapping yields that bidder as winner with clearing price `0.0`, whatever the
bid. -/
theorem second_price_empty_and_singleton :
    run_second_price_auction [] = (none, 0)
    ∧ ∀ (k : String) (v : ℚ), run_second_price_auction [(k, v)] = (some k, 0) :=
  ⟨rfl, fun _ _ => rfl⟩

/-- Counterexample to C10 as stated: with the single bidder `"a"` bidding
`-5`, the clearing price `0` is strictly greater than the winner's bid. -/
theorem clearing_price_gt_winner_bid_singleton :
    run_second_price_auction [("a", -5)] = (some "a", 0)
    ∧ ¬ ((run_second_price_auction [("a", -5)]).2 ≤ -5) :=
  ⟨by decide, by decide⟩

/-- C10 (amended): for every bid mapping with at least two entries, the
clearing price never exceeds the winner's own bid, including when bids are
negative.  (A single-bidder mapping is priced at `0.0`, which can exceed a
negative bid.) -/
theorem clearing_price_le_winner_bid (bids : List (String × ℚ))
    (h2 : 2 ≤ bids.length) :
    ∃ p, firstMax bids = some p
      ∧ (run_second_price_auction bids).1 = some p.1
      ∧ (run_second_price_auction bids).2 ≤ p.2 := by
  have hne : bids ≠ [] := by
    intro h; subst h; simp at h2
  obtain ⟨p, rest, hs, hfm, hw⟩ := run_winner_eq hne
  have hlen : 2 ≤ (List.insertionSort bidGe bids).length := by
    rw [List.length_insertionSort]; exact h2
  cases rest with
  | nil => rw [hs] at hlen; simp at hlen
  | cons b t =>
    have hrun := run_price_eq hs
    have hsorted := sorted_bids_sorted bids
    rw [hs] at hsorted
    have hpb : bidGe p b := List.rel_of_sorted_cons hsorted b (by simp)
    exact ⟨p, hfm, hw, by rw [hrun]; exact hpb⟩

/-- Witness for the amended C10 at a two-entry all-negative input. -/
theorem clearing_price_le_winner_bid_witness :
    (2 ≤ ([(("a" : String), (-5 : ℚ)), ("b", -7)] : List (String × ℚ)).length)
    ∧ ∃ p, firstMax [(("a" : String), (-5 : ℚ)), ("b", -7)] = some p
      ∧ (run_second_price_auction [("a", -5), ("b", -7)]).1 = some p.1
      ∧ (run_second_price_auction [("a", -5), ("b", -7)]).2 ≤ p.2 :=
  ⟨by decide, clearing_price_le_winner_bid _ (by decide)⟩

theorem dictGet_isSome_of_mem_keys {d : List (String × ℚ)} {k : String}
    (h : k ∈ d.map Prod.fst) : ∃ v, dictGet d k = some v := by
  induction d with
  | nil => simp at h
  | cons p rest ih =>
    by_cases hpk : p.1 = k
    · exact ⟨p.2, by simp [dictGet, hpk]⟩
    · simp only [List.map_cons, List.mem_cons] at h
      rcases h with h | h
      · exact absurd h.symm hpk
      · obtain ⟨v, hv⟩ := ih h
        exact ⟨v, by simp [dictGet, hpk, hv]⟩

/-- Looking up a key in the payoff dictionary built by `compute_payoffs`. -/
theorem dictGet_payoff_map (values : List (String × ℚ)) (wid : Option String)
    (c : ℚ) (k : String) :
    dictGet (values.map fun bv =>
        (bv.1, if some bv.1 = wid then bv.2 - c else 0)) k
      = (dictGet values k).map (fun v => if some k = wid then v - c else 0) := by
  induction values with
  | nil => rfl
  | cons p rest ih =>
    by_cases hpk : p.1 = k
    · subst hpk
      simp [dictGet]
    · simp [dictGet, hpk, ih]

theorem payoff_map_sum_not_mem (values : List (String × ℚ)) (w : String) (c : ℚ)
    (hw : w ∉ values.map Prod.fst) :
    ((values.map fun bv =>
        (bv.1, if some bv.1 = some w then bv.2 - c else 0)).map Prod.snd).sum = 0 := by
  induction values with
  | nil => rfl
  | cons p rest ih =>
    simp only [List.map_cons, List.mem_cons, not_or] at hw
    obtain ⟨h1, h2⟩ := hw
    have hcond : ¬ (some p.1 = some w) := by
      simp only [Option.some.injEq]
      exact fun e => h1 e.symm
    simp only [List.map_cons, List.sum_cons, hcond, if_false, ih h2, add_zero]

theorem payoff_map_sum_mem (values : List (String × ℚ)) (w : String) (c vw : ℚ)
    (hnd : (values.map Prod.fst).Nodup)
    (hdw : dictGet values w = some vw) :
    ((values.map fun bv =>
        (bv.1, if some bv.1 = some w then bv.2 - c else 0)).map Prod.snd).sum
      = vw - c := by
  induction values with
  | nil => simp [dictGet] at hdw
  | cons p rest ih =>
    obtain ⟨pk, pv⟩ := p
    simp only [List.map_cons, List.nodup_cons] at hnd
    obtain ⟨hp, hrest⟩ := hnd
    simp only [dictGet] at hdw
    by_cases hpk : pk = w
    · subst hpk
      rw [if_pos rfl] at hdw
      have hvw : pv = vw := by simpa using hdw
      subst hvw
      have hz := payoff_map_sum_not_mem rest pk c hp
      simp only [List.map_cons, List.sum_cons]
      rw [hz]
      simp
    · rw [if_neg hpk] at hdw
      have hcond : ¬ (some pk = some w) := by
        simp only [Option.some.injEq]; exact hpk
      simp only [List.map_cons, List.sum_cons, hcond, if_false, ih hrest hdw, zero_add]

/-- C2: on consistent key sets, the winner's payoff is their value minus the
clearing price, every other bidder's payoff is `0.0`, revenue equals the
clearing price, and the payoffs sum to the winner's payoff. -/
theorem compute_payoffs_spec (bids values : List (String × ℚ))
    (aid : String) (ri : Int)
    (hne : bids ≠ [])
    (hnd : (values.map Prod.fst).Nodup)
    (hkeys : ∀ k, k ∈ bids.map Prod.fst ↔ k ∈ values.map Prod.fst) :
    ∃ w vw,
      (compute_payoffs bids values aid ri).winner_id = some w
      ∧ dictGet values w = some vw
      ∧ dictGet (compute_payoffs bids values aid ri).payoffs w
          = some (vw - (compute_payoffs bids values aid ri).clearing_price)
      ∧ (∀ k ∈ values.map Prod.fst, k ≠ w →
          dictGet (compute_payoffs bids values aid ri).payoffs k = some 0)
      ∧ (compute_payoffs bids values aid ri).revenue
          = (compute_payoffs bids values aid ri).clearing_price
      ∧ ((compute_payoffs bids values aid ri).payoffs.map Prod.snd).sum
          = vw - (compute_payoffs bids values aid ri).clearing_price := by
  obtain ⟨p, rest, hs, hfm, hw⟩ := run_winner_eq hne
  have hmemb : p.1 ∈ bids.map Prod.fst :=
    List.mem_map.2 ⟨p, firstMax_mem hfm, rfl⟩
  have hmemv : p.1 ∈ values.map Prod.fst := (hkeys p.1).1 hmemb
  obtain ⟨vw, hvw⟩ := dictGet_isSome_of_mem_keys hmemv
  refine ⟨p.1, vw, ?_, hvw, ?_, ?_, rfl, ?_⟩
  · simpa [compute_payoffs] using hw
  · simp only [compute_payoffs]
    rw [hw, dictGet_payoff_map, hvw]
    simp
  · intro k hk hkp
    simp only [compute_payoffs]
    rw [hw, dictGet_payoff_map]
    obtain ⟨vk, hvk⟩ := dictGet_isSome_of_mem_keys hk
    rw [hvk]
    simp [hkp]
  · simp only [compute_payoffs]
    rw [hw]
    exact payoff_map_sum_mem values p.1 _ vw hnd hvw

/-- Witness for C2 at a concrete two-bidder input. -/
theorem compute_payoffs_spec_witness :
    (([(("a" : String), (1 : ℚ)), ("b", 2)] : List (String × ℚ)) ≠ [])
    ∧ (([(("a" : String), (3 : ℚ)), ("b", 4)].map Prod.fst).Nodup)
    ∧ (∃ w vw,
      (compute_payoffs [("a", 1), ("b", 2)] [("a", 3), ("b", 4)] "x" 0).winner_id = some w
      ∧ dictGet [("a", 3), ("b", 4)] w = some vw
      ∧ dictGet (compute_payoffs [("a", 1), ("b", 2)] [("a", 3), ("b", 4)] "x" 0).payoffs w
          = some (vw - (compute_payoffs [("a", 1), ("b", 2)] [("a", 3), ("b", 4)] "x" 0).clearing_price)
      ∧ (∀ k ∈ ([(("a" : String), (3 : ℚ)), ("b", 4)].map Prod.fst), k ≠ w →
          dictGet (compute_payoffs [("a", 1), ("b", 2)] [("a", 3), ("b", 4)] "x" 0).payoffs k = some 0)
      ∧ (compute_payoffs [("a", 1), ("b", 2)] [("a", 3), ("b", 4)] "x" 0).revenue
          = (compute_payoffs [("a", 1), ("b", 2)] [("a", 3), ("b", 4)] "x" 0).clearing_price
      ∧ ((compute_payoffs [("a", 1), ("b", 2)] [("a", 3), ("b", 4)] "x" 0).payoffs.map Prod.snd).sum
          = vw - (compute_payoffs [("a", 1), ("b", 2)] [("a", 3), ("b", 4)] "x" 0).clearing_price) :=
  ⟨by decide, by decide,
    compute_payoffs_spec _ _ "x" 0 (by decide) (by decide) (fun _ => Iff.rfl)⟩

/-- C3, evaluated: `compute_payoffs` does not fail when `values` misses a
bidder present in `bids`; at `bids = [("a", 1)]`, `values = []` it returns a
partial outcome whose payoff mapping is empty and does not contain the
winner `"a"`. -/
theorem compute_payoffs_missing_value_partial :
    (compute_payoffs [("a", 1)] [] "simulated_auction" 0).winner_id = some "a"
    ∧ (compute_payoffs [("a", 1)] [] "simulated_auction" 0).payoffs = []
    ∧ dictGet (compute_payoffs [("a", 1)] [] "simulated_auction" 0).payoffs "a" = none :=
  ⟨rfl, rfl, rfl⟩

theorem adjust_shading_step_range (f : ℚ) (h : HistoryArg) (llm : Option ℚ)
    (h1 : 0.7 ≤ f) (h2 : f ≤ 0.95) :
    0.7 ≤ adjust_shading_from_history f h llm
    ∧ adjust_shading_from_history f h llm ≤ 0.95 := by
  cases h with
  | noHistory => exact ⟨h1, h2⟩
  | missingRounds => exact ⟨h1, h2⟩
  | withRounds rounds =>
    simp only [adjust_shading_from_history]
    by_cases hr : rounds.length = 0
    · rw [if_pos hr]; exact ⟨h1, h2⟩
    · rw [if_neg hr]
      cases llm with
      | none => exact ⟨h1, h2⟩
      | some x =>
        refine ⟨le_min (le_max_right x 0.7) (by norm_num), min_le_right _ _⟩

/-- C6: starting from any factor in `[0.7, 0.95]` (the constructor default
is `0.8`), the heuristic bidder's shading factor stays in `[0.7, 0.95]`
after any sequence of adjustments, whatever the (possibly malformed or
absent) history inputs and LLM outcomes. -/
theorem shading_factor_in_range (steps : List (HistoryArg × Option ℚ)) :
    ∀ init : ℚ, 0.7 ≤ init → init ≤ 0.95 →
      0.7 ≤ shadingAfter init steps ∧ shadingAfter init steps ≤ 0.95 := by
  induction steps with
  | nil =>
    intro init h1 h2
    exact ⟨h1, h2⟩
  | cons s rest ih =>
    intro init h1 h2
    have hstep := adjust_shading_step_range init s.1 s.2 h1 h2
    have hrec := ih _ hstep.1 hstep.2
    simpa [shadingAfter] using hrec

/-- Witness for C6: the default factor `0.8` through a no-history step, an
out-of-range LLM suggestion (clamped), and an unparsable LLM reply. -/
theorem shading_factor_in_range_witness :
    ((0.7 : ℚ) ≤ 0.8) ∧ ((0.8 : ℚ) ≤ 0.95)
    ∧ (0.7 ≤ shadingAfter 0.8
          [(HistoryArg.noHistory, none),
           (HistoryArg.withRounds [⟨0, [], [], none⟩], some 2),
           (HistoryArg.missingRounds, some 5)]
      ∧ shadingAfter 0.8
          [(HistoryArg.noHistory, none),
           (HistoryArg.withRounds [⟨0, [], [], none⟩], some 2),
           (HistoryArg.missingRounds, some 5)] ≤ 0.95) :=
  ⟨by norm_num, by norm_num,
    shading_factor_in_range _ 0.8 (by norm_num) (by norm_num)⟩

theorem build_history_excludes (hist : List BidRecord) (r : Int) :
    ∀ rh ∈ (build_history hist (some r)).rounds, rh.round_index ≠ r := by
  intro rh hrh
  simp only [build_history] at hrh
  obtain ⟨r', hr', rfl⟩ := List.mem_map.1 hrh
  obtain ⟨_, hne⟩ := List.mem_filter.1 hr'
  simp only [Bool.not_eq_true', beq_eq_false_iff_ne, ne_eq] at hne
  intro heq
  exact hne heq

/-- C7: in every round run by the coordinator, every history snapshot handed
to a bidder excludes the in-progress round: each entry's round index differs
from the current round. -/
theorem request_history_excludes_current_round
    (cfg : AuctionConfig) (auction_id : String) (current_round : Int)
    (getBid : BidRequest → ℚ) (agentType : String → String)
    (bidders : List (String × ℚ)) (hist0 : List BidRecord) :
    ∀ req ∈ (request_bids cfg auction_id current_round getBid agentType
        bidders hist0).1,
      ∀ rh ∈ req.history.rounds, rh.round_index ≠ current_round := by
  induction bidders generalizing hist0 with
  | nil =>
    intro req hreq
    simp [request_bids] at hreq
  | cons bv bidders ih =>
    intro req hreq
    obtain ⟨bidder_id, v⟩ := bv
    simp only [request_bids] at hreq
    rcases List.mem_cons.1 hreq with rfl | hmem
    · simpa using build_history_excludes hist0 current_round
    · exact ih _ req hmem

/-- Witness for C7: one bidder queried in round 1 with a completed round 0
already recorded; the snapshot it receives contains only round 0. -/
theorem request_history_excludes_current_round_witness :
    ((⟨"a1", 1, ⟨2, 0, 1, 0, "second_price", "uniform", none⟩, "b1", 1/2,
        ⟨[⟨0, [("b1", 1)], [("b1", 2)], some "b1"⟩], 1⟩⟩ : BidRequest)
      ∈ (request_bids ⟨2, 0, 1, 0, "second_price", "uniform", none⟩ "a1" 1
          (fun _ => 1) (fun _ => "Heuristic") [("b1", 1/2)]
          [⟨0, "b1", "Heuristic", 1, 2, some "b1"⟩]).1)
    ∧ ((⟨0, [("b1", 1)], [("b1", 2)], some "b1"⟩ : RoundHistory)
        ∈ (⟨"a1", 1, ⟨2, 0, 1, 0, "second_price", "uniform", none⟩, "b1", 1/2,
            ⟨[⟨0, [("b1", 1)], [("b1", 2)], some "b1"⟩], 1⟩⟩ : BidRequest).history.rounds)
    ∧ (⟨0, [("b1", 1)], [("b1", 2)], some "b1"⟩ : RoundHistory).round_index ≠ 1 :=
  ⟨List.mem_singleton.2 rfl, by decide,
    request_history_excludes_current_round
      ⟨2, 0, 1, 0, "second_price", "uniform", none⟩ "a1" 1 (fun _ => 1)
      (fun _ => "Heuristic") [("b1", 1/2)]
      [⟨0, "b1", "Heuristic", 1, 2, some "b1"⟩]
      ⟨"a1", 1, ⟨2, 0, 1, 0, "second_price", "uniform", none⟩, "b1", 1/2,
        ⟨[⟨0, [("b1", 1)], [("b1", 2)], some "b1"⟩], 1⟩⟩
      (List.mem_singleton.2 rfl)
      ⟨0, [("b1", 1)], [("b1", 2)], some "b1"⟩ (by decide)⟩

/-- Counterexample to C8 as stated: with one configured bidder and
`num_rounds = 0`, `run_simulation` returns `mean_revenue = 0.0` but
zero-filled per-bidder maps over the bidder set — not empty maps. -/
theorem run_simulation_zero_rounds_maps_not_empty :
    run_simulation ⟨1, 0, 1, 0, "second_price", "uniform", none⟩
        [("b1", "truthful")] 0 (fun _ _ => 0)
      = .ok ⟨⟨1, 0, 1, 0, "second_price", "uniform", none⟩, 0, 0,
          [("b1", 0)], [("b1", 0)], none⟩
    ∧ ([(("b1" : String), (0 : ℚ))] : List (String × ℚ)) ≠ [] :=
  ⟨rfl, by decide⟩

/-- C8 (amended): running the simulation loop with `num_rounds = 0` returns
without error a `SimulationSummary` with `mean_revenue = 0.0` and
per-bidder maps assigning `0.0` to every configured bidder (empty only when
there are no bidders). -/
theorem run_simulation_zero_rounds (cfg : AuctionConfig)
    (strategy_profiles : List (String × String)) (sample : Nat → String → ℚ)
    (h : cfg.num_bidders = ((strategy_profiles.map Prod.fst).length : Int)) :
    run_simulation cfg strategy_profiles 0 sample
      = .ok ⟨cfg, 0, 0,
          (strategy_profiles.map Prod.fst).map (fun b => (b, 0)),
          (strategy_profiles.map Prod.fst).map (fun b => (b, 0)), none⟩ := by
  unfold run_simulation
  rw [if_neg (by simp [h])]
  simp

/-- Witness for the amended C8 with two configured bidders. -/
theorem run_simulation_zero_rounds_witness :
    ((⟨2, 0, 1, 0, "second_price", "uniform", none⟩ : AuctionConfig).num_bidders
        = ((([("b1", "truthful"), ("b2", "shaded_0.8")]
              : List (String × String)).map Prod.fst).length : Int))
    ∧ run_simulation ⟨2, 0, 1, 0, "second_price", "uniform", none⟩
        [("b1", "truthful"), ("b2", "shaded_0.8")] 0 (fun _ _ => 0)
      = .ok ⟨⟨2, 0, 1, 0, "second_price", "uniform", none⟩, 0, 0,
          (([("b1", "truthful"), ("b2", "shaded_0.8")]
              : List (String × String)).map Prod.fst).map (fun b => (b, 0)),
          (([("b1", "truthful"), ("b2", "shaded_0.8")]
              : List (String × String)).map Prod.fst).map (fun b => (b, 0)),
          none⟩ :=
  ⟨by decide, run_simulation_zero_rounds _ _ _ (by decide)⟩

theorem avgList_length (v : ℚ) (grid : List ℚ) :
    ∀ rng : PyRandom, (avgList v rng grid).length = grid.length := by
  induction grid with
  | nil => intro rng; rfl
  | cons b grid ih =>
    intro rng
    simp only [avgList, List.length_cons, ih]

/-- The grid scan is the pure selection over the precomputed
(bid, average) pairs. -/
theorem brLoop_eq_selectBest (v : ℚ) (grid : List ℚ) :
    ∀ (acc : ℚ × Option ℚ) (rng : PyRandom),
      brLoop v grid acc rng = selectBest acc (grid.zip (avgList v rng grid)) := by
  induction grid with
  | nil => intro acc rng; rfl
  | cons b grid ih =>
    intro acc rng
    simp only [brLoop, avgList, List.zip_cons_cons, selectBest]
    by_cases hgt : gtBest (avgUtility v b rng).1 acc.2 = true
    · rw [if_pos hgt, if_pos hgt]
      exact ih _ _
    · rw [if_neg hgt, if_neg hgt]
      exact ih _ _

/-- The scan with a `some` starting best either keeps the accumulator
(when nothing strictly beats it) or lands on an entry that strictly beats
it, is maximal, and is strictly above everything before it. -/
theorem selectBest_some_spec (l : List (ℚ × ℚ)) :
    ∀ bb u : ℚ,
      (selectBest (bb, some u) l = (bb, some u) ∧ ∀ p ∈ l, p.2 ≤ u)
      ∨ (∃ l₁ sel l₂,
          l = l₁ ++ sel :: l₂
          ∧ selectBest (bb, some u) l = (sel.1, some sel.2)
          ∧ u < sel.2
          ∧ (∀ p ∈ l, p.2 ≤ sel.2)
          ∧ (∀ p ∈ l₁, p.2 < sel.2)) := by
  induction l with
  | nil =>
    intro bb u
    exact Or.inl ⟨rfl, by simp⟩
  | cons q rest ih =>
    intro bb u
    simp only [selectBest]
    by_cases hq : u < q.2
    · have hgt : gtBest q.2 (some u) = true := by
        simp [gtBest, hq]
      rw [if_pos hgt]
      rcases ih q.1 q.2 with ⟨hsel, hall⟩ | ⟨l₁, sel, l₂, heq, hsel, hu, hall, hpre⟩
      · refine Or.inr ⟨[], q, rest, by simp, ?_, hq, ?_, by simp⟩
        · rw [hsel]
        · intro p hp
          rcases List.mem_cons.1 hp with rfl | hp'
          · exact le_refl _
          · exact hall p hp'
      · refine Or.inr ⟨q :: l₁, sel, l₂, by simp [heq], hsel, lt_trans hq hu, ?_, ?_⟩
        · intro p hp
          rcases List.mem_cons.1 hp with rfl | hp'
          · exact le_of_lt hu
          · exact hall p hp'
        · intro p hp
          rcases List.mem_cons.1 hp with rfl | hp'
          · exact hu
          · exact hpre p hp'
    · have hgt : ¬ (gtBest q.2 (some u) = true) := by
        simp [gtBest, hq]
      rw [if_neg hgt]
      rcases ih bb u with ⟨hsel, hall⟩ | ⟨l₁, sel, l₂, heq, hsel, hu, hall, hpre⟩
      · refine Or.inl ⟨hsel, ?_⟩
        intro p hp
        rcases List.mem_cons.1 hp with rfl | hp'
        · exact le_of_not_lt hq
        · exact hall p hp'
      · refine Or.inr ⟨q :: l₁, sel, l₂, by simp [heq], hsel, hu, ?_, ?_⟩
        · intro p hp
          rcases List.mem_cons.1 hp with rfl | hp'
          · exact le_trans (le_of_not_lt hq) (le_of_lt hu)
          · exact hall p hp'
        · intro p hp
          rcases List.mem_cons.1 hp with rfl | hp'
          · exact lt_of_le_of_lt (le_of_not_lt hq) hu
          · exact hpre p hp'

/-- The scan started at `best_utility = -inf` selects an entry of the list
that is maximal, with everything strictly before it strictly below it
(first-encountered maximum under strict `>` replacement). -/
theorem selectBest_none_spec (l : List (ℚ × ℚ)) (bb0 : ℚ) (hne : l ≠ []) :
    ∃ l₁ sel l₂,
      l = l₁ ++ sel :: l₂
      ∧ selectBest (bb0, none) l = (sel.1, some sel.2)
      ∧ (∀ p ∈ l, p.2 ≤ sel.2)
      ∧ (∀ p ∈ l₁, p.2 < sel.2) := by
  cases l with
  | nil => exact absurd rfl hne
  | cons q rest =>
    have hstep : selectBest (bb0, none) (q :: rest)
        = selectBest (q.1, some q.2) rest := by
      simp [selectBest, gtBest]
    rcases selectBest_some_spec rest q.1 q.2 with
      ⟨hsel, hall⟩ | ⟨l₁, sel, l₂, heq, hsel, hu, hall, hpre⟩
    · refine ⟨[], q, rest, by simp, ?_, ?_, by simp⟩
      · rw [hstep, hsel]
      · intro p hp
        rcases List.mem_cons.1 hp with rfl | hp'
        · exact le_refl _
        · exact hall p hp'
    · refine ⟨q :: l₁, sel, l₂, by simp [heq], by rw [hstep, hsel], ?_, ?_⟩
      · intro p hp
        rcases List.mem_cons.1 hp with rfl | hp'
        · exact le_of_lt hu
        · exact hall p hp'
      · intro p hp
        rcases List.mem_cons.1 hp with rfl | hp'
        · exact hu
        · exact hpre p hp'

theorem brGrid_length (n : Nat) : (brGrid n).length = n := by
  unfold brGrid
  rw [List.length_map, List.length_range]

theorem brGrid_getElem (n i : Nat) (hi : i < n) :
    (brGrid n)[i]? = some ((i : ℚ) / ((n : ℚ) - 1)) := by
  unfold brGrid
  rw [List.getElem?_map, List.getElem?_range hi]
  rfl

theorem brGrid_sub_one_pos {n : Nat} (h2 : 2 ≤ n) : (0 : ℚ) < (n : ℚ) - 1 := by
  have : (2 : ℚ) ≤ (n : ℚ) := by exact_mod_cast h2
  linarith

theorem brGrid_pairwise (n : Nat) (h2 : 2 ≤ n) :
    List.Pairwise (fun a b : ℚ => a ≤ b) (brGrid n) := by
  have hpos := brGrid_sub_one_pos h2
  unfold brGrid
  refine List.pairwise_map.2 ?_
  refine List.Pairwise.imp ?_ (List.pairwise_lt_range n)
  intro a b hab
  exact (div_le_div_iff_of_pos_right hpos).2 (by exact_mod_cast le_of_lt hab)

/-- Shared: with `grid_points ≥ 2` the estimator succeeds and returns the
first-encountered maximal entry of the (bid, average) pairs. -/
theorem approximate_best_response_ok (v : ℚ) (n : Nat) (h2 : 2 ≤ n) :
    ∃ l₁ sel l₂,
      (brGrid n).zip (avgList v (PyRandom.seeded 0) (brGrid n)) = l₁ ++ sel :: l₂
      ∧ approximate_best_response v n = .ok (sel.1, sel.2)
      ∧ (∀ p ∈ (brGrid n).zip (avgList v (PyRandom.seeded 0) (brGrid n)),
          p.2 ≤ sel.2)
      ∧ (∀ p ∈ l₁, p.2 < sel.2) := by
  have hn2 : ¬ n < 2 := not_lt.2 h2
  have hlen : ((brGrid n).zip (avgList v (PyRandom.seeded 0) (brGrid n))).length = n := by
    rw [List.length_zip, avgList_length v (brGrid n) (PyRandom.seeded 0)]
    simp only [brGrid_length, inf_idem]
  have hzne : (brGrid n).zip (avgList v (PyRandom.seeded 0) (brGrid n)) ≠ [] := by
    intro h
    rw [h] at hlen
    simp only [List.length_nil] at hlen
    omega
  obtain ⟨l₁, sel, l₂, heq, hsel, hall, hpre⟩ := selectBest_none_spec _ 0 hzne
  refine ⟨l₁, sel, l₂, heq, ?_, hall, hpre⟩
  simp only [approximate_best_response, if_neg hn2]
  rw [brLoop_eq_selectBest, hsel]
  rfl

theorem zip_fst_pairwise {grid avgs : List ℚ}
    (hlen : grid.length ≤ avgs.length)
    (hp : List.Pairwise (fun a b : ℚ => a ≤ b) grid) :
    List.Pairwise (fun p q : ℚ × ℚ => p.1 ≤ q.1) (grid.zip avgs) := by
  have hmap : (grid.zip avgs).map Prod.fst = grid := List.map_fst_zip _ _ hlen
  rw [← hmap] at hp
  exact List.pairwise_map.1 hp

/-- C5: for `grid_points < 2` the estimator fails with the invalid-argument
error; otherwise the candidate grid has exactly `grid_points` evenly spaced
points with endpoints `0` and `1`, and the returned pair is the grid bid
with the highest average sampled payoff, ties going to the lowest
(first-encountered) bid because the ascending grid is scanned with strict
`>` replacement. -/
theorem approximate_best_response_grid_spec (v : ℚ) (n : Nat) :
    (n < 2 → approximate_best_response v n
        = .error "num_grid_points must be at least 2")
    ∧ (2 ≤ n →
        (brGrid n).length = n
        ∧ (brGrid n)[0]? = some 0
        ∧ (brGrid n)[n - 1]? = some 1
        ∧ (∀ i, i < n → (brGrid n)[i]? = some ((i : ℚ) / ((n : ℚ) - 1)))
        ∧ (∀ i : ℕ, i + 1 < n →
            ((i + 1 : ℕ) : ℚ) / ((n : ℚ) - 1) - ((i : ℕ) : ℚ) / ((n : ℚ) - 1)
              = 1 / ((n : ℚ) - 1))
        ∧ ∃ l₁ sel l₂,
            (brGrid n).zip (avgList v (PyRandom.seeded 0) (brGrid n))
              = l₁ ++ sel :: l₂
            ∧ approximate_best_response v n = .ok (sel.1, sel.2)
            ∧ sel.1 ∈ brGrid n
            ∧ (∀ p ∈ (brGrid n).zip (avgList v (PyRandom.seeded 0) (brGrid n)),
                p.2 ≤ sel.2)
            ∧ (∀ p ∈ l₁, p.2 < sel.2)
            ∧ (∀ p ∈ (brGrid n).zip (avgList v (PyRandom.seeded 0) (brGrid n)),
                p.2 = sel.2 → sel.1 ≤ p.1)) := by
  constructor
  · intro hlt
    simp [approximate_best_response, if_pos hlt]
  · intro h2
    have hpos := brGrid_sub_one_pos h2
    refine ⟨brGrid_length n, ?_, ?_, fun i hi => brGrid_getElem n i hi, ?_, ?_⟩
    · rw [brGrid_getElem n 0 (by omega)]
      simp
    · rw [brGrid_getElem n (n - 1) (by omega)]
      have hcast : ((n - 1 : ℕ) : ℚ) = (n : ℚ) - 1 := by
        have : (1 : ℕ) ≤ n := by omega
        push_cast [this]
        ring
      rw [hcast, div_self (ne_of_gt hpos)]
    · intro i _
      rw [div_sub_div_same]
      push_cast
      ring_nf
    · obtain ⟨l₁, sel, l₂, heq, hok, hall, hpre⟩ :=
        approximate_best_response_ok v n h2
      have hlen : (brGrid n).length ≤ (avgList v (PyRandom.seeded 0) (brGrid n)).length := by
        rw [avgList_length]
      have hselmem : sel ∈ (brGrid n).zip (avgList v (PyRandom.seeded 0) (brGrid n)) := by
        rw [heq]
        exact List.mem_append.2 (Or.inr (List.mem_cons_self _ _))
      refine ⟨l₁, sel, l₂, heq, hok,
        ((List.of_mem_zip hselmem).1 : sel.1 ∈ brGrid n), hall, hpre, ?_⟩
      intro p hp hmax
      have hfst : List.Pairwise (fun p q : ℚ × ℚ => p.1 ≤ q.1)
          ((brGrid n).zip (avgList v (PyRandom.seeded 0) (brGrid n))) :=
        zip_fst_pairwise hlen (brGrid_pairwise n h2)
      rw [heq] at hfst hp
      rcases List.mem_append.1 hp with hp1 | hp2
      · exact absurd hmax (ne_of_lt (hpre p hp1))
      · have hsuffix : List.Pairwise (fun p q : ℚ × ℚ => p.1 ≤ q.1) (sel :: l₂) :=
          List.Pairwise.sublist (List.sublist_append_right l₁ (sel :: l₂)) hfst
        rcases List.mem_cons.1 hp2 with rfl | hp3
        · exact le_refl _
        · exact List.rel_of_pairwise_cons hsuffix hp3

/-- Witness for C5: instantiated at `grid_points = 1` (the error side) and
`grid_points = 2`, `private_value = 0` (the success side). -/
theorem approximate_best_response_grid_spec_witness :
    ((1 : Nat) < 2
      ∧ approximate_best_response 0 1
          = .error "num_grid_points must be at least 2")
    ∧ ((2 : Nat) ≤ 2
      ∧ ((brGrid 2).length = 2
        ∧ (brGrid 2)[0]? = some 0
        ∧ (brGrid 2)[2 - 1]? = some 1
        ∧ (∀ i : ℕ, i < 2 → (brGrid 2)[i]? = some ((i : ℚ) / (((2 : ℕ) : ℚ) - 1)))
        ∧ (∀ i : ℕ, i + 1 < 2 →
            ((i + 1 : ℕ) : ℚ) / (((2 : ℕ) : ℚ) - 1)
                - ((i : ℕ) : ℚ) / (((2 : ℕ) : ℚ) - 1)
              = 1 / (((2 : ℕ) : ℚ) - 1))
        ∧ ∃ l₁ sel l₂,
            (brGrid 2).zip (avgList 0 (PyRandom.seeded 0) (brGrid 2))
              = l₁ ++ sel :: l₂
            ∧ approximate_best_response 0 2 = .ok (sel.1, sel.2)
            ∧ sel.1 ∈ brGrid 2
            ∧ (∀ p ∈ (brGrid 2).zip (avgList 0 (PyRandom.seeded 0) (brGrid 2)),
                p.2 ≤ sel.2)
            ∧ (∀ p ∈ l₁, p.2 < sel.2)
            ∧ (∀ p ∈ (brGrid 2).zip (avgList 0 (PyRandom.seeded 0) (brGrid 2)),
                p.2 = sel.2 → sel.1 ≤ p.1))) :=
  ⟨⟨by decide, (approximate_best_response_grid_spec 0 1).1 (by decide)⟩,
   ⟨by decide, (approximate_best_response_grid_spec 0 2).2 (by decide)⟩⟩

/-- C4: the best-response estimator is deterministic — whatever the ambient
process-wide generator state, two calls with identical
`(private_value, grid_points)` return identical results, because the call
re-seeds its own generator with seed `0`; with `grid_points ≥ 2` the call
succeeds. -/
theorem approximate_best_response_deterministic
    (g₁ g₂ : PyRandom) (v : ℚ) (n : Nat) (h2 : 2 ≤ n) :
    (approximate_best_response_in_env g₁ v n).1
      = (approximate_best_response_in_env g₂ v n).1
    ∧ ∃ bb bu, (approximate_best_response_in_env g₁ v n).1 = .ok (bb, bu) := by
  refine ⟨rfl, ?_⟩
  obtain ⟨l₁, sel, l₂, _, hok, _, _⟩ := approximate_best_response_ok v n h2
  exact ⟨sel.1, sel.2, hok⟩

/-- Witness for C4 at two different ambient generator states. -/
theorem approximate_best_response_deterministic_witness :
    (2 : Nat) ≤ 2
    ∧ ((approximate_best_response_in_env ⟨0⟩ (1/2) 2).1
        = (approximate_best_response_in_env ⟨1⟩ (1/2) 2).1
      ∧ ∃ bb bu, (approximate_best_response_in_env ⟨0⟩ (1/2) 2).1
          = .ok (bb, bu)) :=
  ⟨by decide, approximate_best_response_deterministic ⟨0⟩ ⟨1⟩ (1/2) 2 (by decide)⟩

end AuctionMarket
